import Mathlib

/-!
Verification of the Cryptolab cipher backend.

The Python sources are shallowly embedded as follows:
* A Python string is a sequence of code points; we model text as `List Int`
  (each element one code point, `ord`/`chr` are the identity on the model).
  `str.upper` / `str.isalpha` are modelled on the ASCII range, which covers
  every letter the ciphers produce and consume.
* Python integers are `Int`.  Python `%` and `//` on a positive divisor agree
  with `Int.emod` / `Int.ediv`, which is how they are used throughout the
  repository (all moduli are 26 or 5, all Euclid steps have a nonnegative
  divisor), so recursive functions are embedded with `emod`/`ediv`.
* The `while`/recursive helpers of `math_utils.py` are embedded with an
  explicit fuel argument that bounds the number of iterations (the loop
  variable strictly decreases, so the fuel is never exhausted); this keeps
  every definition structurally recursive and hence kernel-computable.
* Dictionaries returned by the cipher operations are embedded as structures;
  a dictionary that is either an error record or a success record becomes an
  `Except`/sum shape.  The purely pedagogical "steps" traces and display-only
  formula strings carry no information used by any claim and are omitted;
  every other field is kept.
-/

set_option maxRecDepth 8000

namespace Cryptolab

/-- ASCII model of `str.upper` on one code point. -/
def upperChar (c : Int) : Int := if 97 ≤ c ∧ c ≤ 122 then c - 32 else c

/-- ASCII model of `str.isalpha` on one code point. -/
def isalpha (c : Int) : Bool :=
  (decide (65 ≤ c) && decide (c ≤ 90)) || (decide (97 ≤ c) && decide (c ≤ 122))

/-! ### math_utils.py -/

/-- `mod(n, m)`: `((n % m) + m) % m`. -/
def mod (n m : Int) : Int := ((n % m) + m) % m

/-- The loop `while b: a, b = b, a % b` of `gcd`; `fuel` bounds the number of
iterations (the second argument strictly decreases, so `b + 1` iterations
always suffice). -/
def gcdAux : Nat → Nat → Nat → Nat
  | 0, a, _ => a
  | fuel + 1, a, b => if b = 0 then a else gcdAux fuel b (a % b)

/-- `gcd(a, b)`: Euclidean algorithm on absolute values. -/
def gcd (a b : Int) : Int := (gcdAux (b.natAbs + 1) a.natAbs b.natAbs : Nat)

/-- Recursion of `extended_gcd`; the fuel bounds the recursion depth (the
first argument's absolute value strictly decreases, so `a.natAbs + 1` levels
always suffice; the fuel-0 result coincides with the `a = 0` base case). -/
def extended_gcdAux : Nat → Int → Int → Int × Int × Int
  | 0, _, b => (b, 0, 1)
  | fuel + 1, a, b =>
    if a = 0 then (b, 0, 1)
    else
      let r := extended_gcdAux fuel (b % a) a
      (r.1, r.2.2 - b / a * r.2.1, r.2.1)

/-- `extended_gcd(a, b)`: returns `(g, x, y)` with `a*x + b*y = g`. -/
def extended_gcd (a b : Int) : Int × Int × Int := extended_gcdAux (a.natAbs + 1) a b

/-- `mod_inverse(a, m)`: `None` when the extended gcd is not 1. -/
def mod_inverse (a m : Int) : Option Int :=
  let r := extended_gcd (mod a m) m
  if r.1 ≠ 1 then none else some (mod r.2.1 m)

/-- A Python 2×2 list-of-lists matrix `[[m00, m01], [m10, m11]]`.
(`matrix_inverse_mod_26` etc. only ever build and consume this shape; the
"matrix must be 2x2" structural check of `validate_matrix` is enforced by
the type.) -/
structure Mat2 where
  m00 : Int
  m01 : Int
  m10 : Int
  m11 : Int
deriving DecidableEq

/-- `matrix_multiply_mod(A, B, m)`. -/
def matrix_multiply_mod (A B : Mat2) (m : Int) : Mat2 :=
  ⟨mod (A.m00 * B.m00 + A.m01 * B.m10) m,
   mod (A.m00 * B.m01 + A.m01 * B.m11) m,
   mod (A.m10 * B.m00 + A.m11 * B.m10) m,
   mod (A.m10 * B.m01 + A.m11 * B.m11) m⟩

/-- `matrix_vector_multiply_mod(M, v, m)`. -/
def matrix_vector_multiply_mod (M : Mat2) (v : Int × Int) (m : Int) : Int × Int :=
  (mod (M.m00 * v.1 + M.m01 * v.2) m, mod (M.m10 * v.1 + M.m11 * v.2) m)

/-- `determinant_2x2(M)`. -/
def determinant_2x2 (M : Mat2) : Int := M.m00 * M.m11 - M.m01 * M.m10

/-- `matrix_inverse_mod_26(M)`: det-inverse times adjugate, entrywise mod 26. -/
def matrix_inverse_mod_26 (M : Mat2) : Option Mat2 :=
  let det := determinant_2x2 M
  let det_mod := mod det 26
  match mod_inverse det_mod 26 with
  | none => none
  | some det_inv =>
      some ⟨mod (det_inv * M.m11) 26, mod (det_inv * (-M.m01)) 26,
            mod (det_inv * (-M.m10)) 26, mod (det_inv * M.m00) 26⟩

/-- `is_matrix_invertible_mod_26(M)`. -/
def is_matrix_invertible_mod_26 (M : Mat2) : Bool :=
  gcd (mod (determinant_2x2 M) 26) 26 == 1

/-! ### caesar.py -/

/-- The per-character body of the `CaesarCipher.encrypt` loop: an alphabetic
character is shifted, any other character passes through unchanged. -/
def caesarShift (shift c : Int) : Int :=
  if isalpha c then mod ((c - 65) + shift) 26 + 65 else c

/-- The per-character body of the `CaesarCipher.decrypt` loop. -/
def caesarUnshift (shift c : Int) : Int :=
  if isalpha c then mod ((c - 65) - shift) 26 + 65 else c

/-- The dictionary returned by the Caesar operations
(the "steps" trace is omitted, see the file header). -/
structure CaesarResult where
  result : List Int
  shift : Int
  operation : String

namespace CaesarCipher

/-- `CaesarCipher.encrypt(plaintext, shift)`. -/
def encrypt (plaintext : List Int) (shift : Int) : CaesarResult :=
  let shift := mod shift 26
  ⟨(plaintext.map upperChar).map (caesarShift shift), shift, "encrypt"⟩

/-- `CaesarCipher.decrypt(ciphertext, shift)`. -/
def decrypt (ciphertext : List Int) (shift : Int) : CaesarResult :=
  let shift := mod shift 26
  ⟨(ciphertext.map upperChar).map (caesarUnshift shift), shift, "decrypt"⟩

end CaesarCipher

/-! ### affine.py -/

/-- The error dictionary returned by the affine operations on an invalid key:
it carries only the message and the list of valid values, no partial result. -/
structure AffineError where
  error : String
  valid_a_values : List Int
deriving DecidableEq

/-- The success dictionary of the affine operations
("steps" and the display-only "formula" string omitted). -/
structure AffineSuccess where
  result : List Int
  key_a : Int
  key_b : Int
  a_inverse : Option Int
  operation : String

/-- Python: `f"Invalid key 'a={a}'. Must be coprime with 26."` (the quotes
around the key are dropped here). -/
def affineInvalidKeyMsg (a : Int) : String :=
  s!"Invalid key a={a}. Must be coprime with 26."

/-- Message for the branch `decrypt` would reach only if a valid key had no
modular inverse; Python would raise there, and the branch is unreachable. -/
def affineNoInverseMsg : String := "internal: valid key without modular inverse"

namespace AffineCipher

/-- `AffineCipher.VALID_A_VALUES`. -/
def VALID_A_VALUES : List Int := [1, 3, 5, 7, 9, 11, 15, 17, 19, 21, 23, 25]

/-- `AffineCipher.is_valid_key(a)`. -/
def is_valid_key (a : Int) : Bool := gcd a 26 == 1

/-- `AffineCipher.get_inverse(a)`. -/
def get_inverse (a : Int) : Option Int := mod_inverse a 26

/-- The per-character body of the `AffineCipher.encrypt` loop. -/
def encChar (a b c : Int) : Int :=
  if isalpha c then mod (a * (c - 65) + b) 26 + 65 else c

/-- The per-character body of the `AffineCipher.decrypt` loop. -/
def decChar (a_inverse b c : Int) : Int :=
  if isalpha c then mod (a_inverse * ((c - 65) - b)) 26 + 65 else c

/-- `AffineCipher.encrypt(plaintext, a, b)`. -/
def encrypt (plaintext : List Int) (a b : Int) : Except AffineError AffineSuccess :=
  if is_valid_key a then
    let b := mod b 26
    .ok ⟨(plaintext.map upperChar).map (encChar a b), a, b, get_inverse a, "encrypt"⟩
  else .error ⟨affineInvalidKeyMsg a, VALID_A_VALUES⟩

/-- `AffineCipher.decrypt(ciphertext, a, b)`.  After validation Python uses
the modular inverse unconditionally; the `none` branch is unreachable (a
valid key always has one — proved below). -/
def decrypt (ciphertext : List Int) (a b : Int) : Except AffineError AffineSuccess :=
  if is_valid_key a then
    match get_inverse a with
    | some a_inverse =>
        let b := mod b 26
        .ok ⟨(ciphertext.map upperChar).map (decChar a_inverse b), a, b, some a_inverse, "decrypt"⟩
    | none => .error ⟨affineNoInverseMsg, []⟩
  else .error ⟨affineInvalidKeyMsg a, VALID_A_VALUES⟩

end AffineCipher

/-! ### playfair.py -/

/-- The 25-letter alphabet string `'ABCDEFGHIKLMNOPQRSTUVWXYZ'` (no J). -/
def alphabet25 : List Int :=
  [65, 66, 67, 68, 69, 70, 71, 72, 73, 75, 76, 77, 78, 79, 80, 81, 82, 83,
   84, 85, 86, 87, 88, 89, 90]

/-- One iteration of the keyword/alphabet loops of `generate_matrix`: append
the character unless it was already seen (`seen` is exactly the set of
characters already appended, so the set is represented by the list itself). -/
def addUnique (acc : List Int) (c : Int) : List Int :=
  if c ∈ acc then acc else acc ++ [c]

/-- `74`/`73` are `'J'`/`'I'`: the `replace('J', 'I')` fold on one code point. -/
def foldJ (c : Int) : Int := if c = 74 then 73 else c

/-- The `matrix_chars` list built by `generate_matrix`: keyword first
(uppercased, J folded to I, non-letters stripped, duplicates skipped), then
the remaining letters of `alphabet25`. -/
def matrixChars (keyword : List Int) : List Int :=
  let kw := ((keyword.map upperChar).map foldJ).filter isalpha
  alphabet25.foldl addUnique (kw.foldl addUnique [])

/-- An indexing helper for `matrix[row][col]` (all indices used by the cipher
are in `[0, 5)`; Python's negative-index wraparound is never exercised
because every processed character occurs in the matrix). -/
def cell (m : List (List Int)) (r c : Int) : Int :=
  ((m.getD r.toNat []).getD c.toNat 0)

namespace PlayfairCipher

/-- `PlayfairCipher.generate_matrix(keyword)`: `matrix_chars` cut into the
rows `[0:5], [5:10], [10:15], [15:20], [20:25]`. -/
def generate_matrix (keyword : List Int) : List (List Int) :=
  let cs := matrixChars keyword
  [cs.take 5, (cs.drop 5).take 5, (cs.drop 10).take 5,
   (cs.drop 15).take 5, (cs.drop 20).take 5]

/-- Inner loop of `find_position`: scan one row for the character. -/
def findCol : List Int → Int → Nat → Option Nat
  | [], _, _ => none
  | x :: xs, c, j => if x = c then some j else findCol xs c (j + 1)

/-- Outer loop of `find_position`: scan the rows; `(-1, -1)` when absent. -/
def findRow : List (List Int) → Int → Nat → Int × Int
  | [], _, _ => (-1, -1)
  | row :: rest, c, r =>
    match findCol row c 0 with
    | some j => ((r : Int), (j : Int))
    | none => findRow rest c (r + 1)

/-- `PlayfairCipher.find_position(matrix, char)`. -/
def find_position (matrix : List (List Int)) (char : Int) : Int × Int :=
  findRow matrix (foldJ (upperChar char)) 0

/-- The digraph-splitting `while` loop of `prepare_text` (88 is `'X'`):
identical neighbours get an X filler and the second letter is re-consumed;
a trailing single letter is padded with X. -/
def pairLoop : List Int → List (Int × Int)
  | [] => []
  | [c] => [(c, 88)]
  | c1 :: c2 :: rest =>
    if c1 = c2 then (c1, 88) :: pairLoop (c2 :: rest)
    else (c1, c2) :: pairLoop rest

/-- `PlayfairCipher.prepare_text(text)`: returns the list of digraphs. -/
def prepare_text (text : List Int) : List (Int × Int) :=
  pairLoop (((text.map upperChar).map foldJ).filter isalpha)

/-- The per-digraph encryption rule (same row → right, same column → down,
rectangle → swap columns). -/
def encryptDigraph (matrix : List (List Int)) (d : Int × Int) : Int × Int :=
  let p1 := find_position matrix d.1
  let p2 := find_position matrix d.2
  if p1.1 = p2.1 then
    (cell matrix p1.1 ((p1.2 + 1) % 5), cell matrix p2.1 ((p2.2 + 1) % 5))
  else if p1.2 = p2.2 then
    (cell matrix ((p1.1 + 1) % 5) p1.2, cell matrix ((p2.1 + 1) % 5) p2.2)
  else
    (cell matrix p1.1 p2.2, cell matrix p2.1 p1.2)

/-- The per-digraph decryption rule (shift directions inverted, rectangle
case unchanged). -/
def decryptDigraph (matrix : List (List Int)) (d : Int × Int) : Int × Int :=
  let p1 := find_position matrix d.1
  let p2 := find_position matrix d.2
  if p1.1 = p2.1 then
    (cell matrix p1.1 ((p1.2 - 1) % 5), cell matrix p2.1 ((p2.2 - 1) % 5))
  else if p1.2 = p2.2 then
    (cell matrix ((p1.1 - 1) % 5) p1.2, cell matrix ((p2.1 - 1) % 5) p2.2)
  else
    (cell matrix p1.1 p2.2, cell matrix p2.1 p1.2)

end PlayfairCipher

/-- Concatenate digraphs back into a string (`result += encrypted`). -/
def digraphsJoin : List (Int × Int) → List Int
  | [] => []
  | d :: rest => d.1 :: d.2 :: digraphsJoin rest

/-- `decrypt`'s digraph split `[ciphertext[i:i+2] for i in range(0, len, 2)]`
followed by the loop's `continue` on a trailing 1-character chunk: the
trailing single character, if any, is dropped. -/
def chunkPairs : List Int → List (Int × Int)
  | c1 :: c2 :: rest => (c1, c2) :: chunkPairs rest
  | _ => []

/-- The dictionary returned by `PlayfairCipher.encrypt` ("steps" omitted). -/
structure PlayfairEncResult where
  result : List Int
  matrix : List (List Int)
  keyword : List Int
  prepared_text : List Int
  digraphs : List (Int × Int)
  operation : String

/-- The dictionary returned by `PlayfairCipher.decrypt` ("steps" omitted). -/
structure PlayfairDecResult where
  result : List Int
  matrix : List (List Int)
  keyword : List Int
  digraphs : List (Int × Int)
  operation : String

namespace PlayfairCipher

/-- `PlayfairCipher.encrypt(plaintext, keyword)`. -/
def encrypt (plaintext keyword : List Int) : PlayfairEncResult :=
  let matrix := generate_matrix keyword
  let digraphs := prepare_text plaintext
  ⟨digraphsJoin (digraphs.map (encryptDigraph matrix)), matrix,
   keyword.map upperChar, digraphsJoin digraphs, digraphs, "encrypt"⟩

/-- `PlayfairCipher.decrypt(ciphertext, keyword)`. -/
def decrypt (ciphertext keyword : List Int) : PlayfairDecResult :=
  let matrix := generate_matrix keyword
  let cleaned := ((ciphertext.map upperChar).map foldJ).filter isalpha
  let digraphs := chunkPairs cleaned
  ⟨digraphsJoin (digraphs.map (decryptDigraph matrix)), matrix,
   keyword.map upperChar, digraphs, "decrypt"⟩

end PlayfairCipher

/-! ### hill.py -/

/-- Python: `f"Matrix not invertible. gcd({det_mod}, 26) = {g} ≠ 1"`. -/
def matrixNotInvertibleMsg (det_mod g : Int) : String :=
  s!"Matrix not invertible. gcd({det_mod}, 26) = {g} ≠ 1"

/-- Python: `"Could not compute matrix inverse"`. -/
def couldNotInvertMsg : String := "Could not compute matrix inverse"

/-- The dictionary returned by `HillCipher.validate_matrix` (the 2×2 shape
check cannot fail on a `Mat2`). -/
structure MatrixValidation where
  valid : Bool
  determinant : Int
  determinant_mod_26 : Int
  gcd_with_26 : Int
  error : Option String

/-- The success dictionary of `HillCipher.encrypt`/`decrypt`
("steps" omitted). -/
structure HillSuccess where
  result : List Int
  key_matrix : Mat2
  inverse_matrix : Option Mat2
  determinant : Int
  determinant_mod_26 : Int
  prepared_text : List Int
  operation : String

/-- Python reads `result.get("result", "")` after re-encrypting during key
recovery: the result string of a success record, `""` for an error record. -/
def hillResultOf : Except String HillSuccess → List Int
  | .ok s => s.result
  | .error _ => []

namespace HillCipher

/-- `HillCipher.validate_matrix(matrix)`. -/
def validate_matrix (matrix : Mat2) : MatrixValidation :=
  let det := determinant_2x2 matrix
  let det_mod := mod det 26
  let is_invertible := is_matrix_invertible_mod_26 matrix
  ⟨is_invertible, det, det_mod, gcd det_mod 26,
   if is_invertible then none else some (matrixNotInvertibleMsg det_mod (gcd det_mod 26))⟩

/-- `HillCipher.prepare_text(text)`: uppercase, letters only, pad with `'X'`
(88) if of odd length. -/
def prepare_text (text : List Int) : List Int :=
  let t := (text.map upperChar).filter isalpha
  if t.length % 2 ≠ 0 then t ++ [88] else t

/-- `HillCipher.text_to_vectors(text)`.  Python indexes pairs by
`range(0, len(text), 2)` on an even-length prepared text; a leftover odd
character (on which Python would raise) is dropped. -/
def text_to_vectors : List Int → List (Int × Int)
  | c1 :: c2 :: rest => (c1 - 65, c2 - 65) :: text_to_vectors rest
  | _ => []

/-- `HillCipher.vectors_to_text(vectors)`. -/
def vectors_to_text : List (Int × Int) → List Int
  | [] => []
  | v :: rest => (v.1 + 65) :: (v.2 + 65) :: vectors_to_text rest

/-- `HillCipher.encrypt(plaintext, key_matrix)`: an error record when the
key fails validation, otherwise the success record. -/
def encrypt (plaintext : List Int) (key_matrix : Mat2) : Except String HillSuccess :=
  let validation := validate_matrix key_matrix
  if validation.valid then
    let prepared := prepare_text plaintext
    let result_vectors :=
      (text_to_vectors prepared).map (fun vec => matrix_vector_multiply_mod key_matrix vec 26)
    .ok ⟨vectors_to_text result_vectors, key_matrix, matrix_inverse_mod_26 key_matrix,
         validation.determinant, validation.determinant_mod_26, prepared, "encrypt"⟩
  else .error (validation.error.getD "")

/-- `HillCipher.decrypt(ciphertext, key_matrix)`. -/
def decrypt (ciphertext : List Int) (key_matrix : Mat2) : Except String HillSuccess :=
  let validation := validate_matrix key_matrix
  if validation.valid then
    match matrix_inverse_mod_26 key_matrix with
    | none => .error couldNotInvertMsg
    | some inverse_matrix =>
      let prepared := prepare_text ciphertext
      let result_vectors :=
        (text_to_vectors prepared).map (fun vec => matrix_vector_multiply_mod inverse_matrix vec 26)
      .ok ⟨vectors_to_text result_vectors, key_matrix, some inverse_matrix,
           validation.determinant, validation.determinant_mod_26, prepared, "decrypt"⟩
  else .error (validation.error.getD "")

end HillCipher

/-- The 2×2 matrix whose columns are the two digraphs of the 4-character
window of `t` starting at `pos` (`P` and `C` of `_try_crack_at_position`,
rebuilt identically for the rejection log inside `crack`). -/
def windowMat (t : List Int) (pos : Nat) : Mat2 :=
  let p := (t.drop pos).take 4
  ⟨p.getD 0 0 - 65, p.getD 2 0 - 65, p.getD 1 0 - 65, p.getD 3 0 - 65⟩

/-- One entry of the `tried_positions` log of `HillCipher.crack`. -/
structure TriedPosition where
  position : Nat
  plaintext : List Int
  ciphertext : List Int
  invertible : Bool
  reason : String
deriving DecidableEq

/-- Python: `f"gcd({det_P_mod}, 26) = {g} ≠ 1"`. -/
def rejectReasonMsg (det_P_mod g : Int) : String :=
  s!"gcd({det_P_mod}, 26) = {g} ≠ 1"

/-- Python: `"Matrix is invertible"`. -/
def invertibleReasonMsg : String := "Matrix is invertible"

/-- The log entry `crack` records for a rejected (non-invertible) offset. -/
def rejectEntry (pt ct : List Int) (pos : Nat) : TriedPosition :=
  let det_P_mod := mod (determinant_2x2 (windowMat pt pos)) 26
  ⟨pos, (pt.drop pos).take 4, (ct.drop pos).take 4, false,
   rejectReasonMsg det_P_mod (gcd det_P_mod 26)⟩

/-- The log entry `crack` records for the accepted (invertible) offset. -/
def acceptEntry (pt ct : List Int) (pos : Nat) : TriedPosition :=
  ⟨pos, (pt.drop pos).take 4, (ct.drop pos).take 4, true, invertibleReasonMsg⟩

/-- The dictionary returned by `HillCipher._try_crack_at_position`. -/
structure CrackAttempt where
  position : Nat
  used_plaintext : List Int
  used_ciphertext : List Int
  key_matrix : Mat2
  P : Mat2
  C : Mat2
  P_inv : Mat2
  det_P : Int
  det_P_mod : Int
deriving DecidableEq

namespace HillCipher

/-- `HillCipher._try_crack_at_position(plaintext, ciphertext, pos)`: `none`
for a short window or a non-invertible plaintext matrix.  After the gcd
guard the inverse always exists; Python uses it unconditionally, so the
`none` fallback of the `match` is unreachable. -/
def _try_crack_at_position (plaintext ciphertext : List Int) (pos : Nat) : Option CrackAttempt :=
  let p := (plaintext.drop pos).take 4
  let c := (ciphertext.drop pos).take 4
  if p.length < 4 ∨ c.length < 4 then none
  else
    let P := windowMat plaintext pos
    let det_P := determinant_2x2 P
    let det_P_mod := mod det_P 26
    if gcd det_P_mod 26 ≠ 1 then none
    else
      let C := windowMat ciphertext pos
      match matrix_inverse_mod_26 P with
      | none => none
      | some P_inv =>
          some ⟨pos, p, c, matrix_multiply_mod C P_inv 26, P, C, P_inv, det_P, det_P_mod⟩

end HillCipher

/-- The sum of the three dictionary shapes `HillCipher.crack` can return
("steps" omitted; the literal `"success"` values are kept as the first
`Bool` field; the `found` case flattens the `used_window` and
`verification` sub-dictionaries, whose `match` field duplicates
`success`). -/
inductive CrackResult where
  | tooShort (error : String) (success : Bool)
  | exhausted (error : String) (success : Bool)
      (positions_tried : List TriedPosition) (suggestion : String)
  | found (success : Bool) (key_matrix : Mat2)
      (known_plaintext known_ciphertext : List Int)
      (window_position : Nat) (window_plaintext window_ciphertext : List Int)
      (verification_encrypted verification_expected : List Int)
      (verification_match : Bool)
      (positions_tried : List TriedPosition)
deriving DecidableEq

/-- Python: `"Need at least 4 characters of known plaintext and ciphertext"`. -/
def crackTooShortMsg : String := "Need at least 4 characters of known plaintext and ciphertext"

/-- Python: the exhaustion error message of `crack`. -/
def crackExhaustedMsg : String :=
  "No invertible plaintext matrix found. All positions tried have gcd(det, 26) ≠ 1"

/-- Python: the exhaustion suggestion of `crack`. -/
def crackSuggestionMsg : String :=
  "Try a longer plaintext-ciphertext pair with different letter combinations"

/-- The even offsets `range(0, min_len - 3, 2)` scanned by `crack`. -/
def crackPositions (min_len : Nat) : List Nat :=
  List.range' 0 ((min_len - 3 + 1) / 2) 2

/-- The scanning `for` loop of `crack` over the candidate offsets: log a
rejection and continue, or log the acceptance and break with the attempt. -/
def crackLoop (pt ct : List Int) : List Nat → List TriedPosition × Option CrackAttempt
  | [] => ([], none)
  | pos :: rest =>
    match HillCipher._try_crack_at_position pt ct pos with
    | none =>
        let r := crackLoop pt ct rest
        (rejectEntry pt ct pos :: r.1, r.2)
    | some att => ([acceptEntry pt ct pos], some att)

/-- `min_len` of `crack`. -/
def truncLen (known_plaintext known_ciphertext : List Int) : Nat :=
  min (HillCipher.prepare_text known_plaintext).length
      (HillCipher.prepare_text known_ciphertext).length

/-- `plaintext_full` of `crack` after truncation to the common length. -/
def truncPT (known_plaintext known_ciphertext : List Int) : List Int :=
  (HillCipher.prepare_text known_plaintext).take (truncLen known_plaintext known_ciphertext)

/-- `ciphertext_full` of `crack` after truncation to the common length. -/
def truncCT (known_plaintext known_ciphertext : List Int) : List Int :=
  (HillCipher.prepare_text known_ciphertext).take (truncLen known_plaintext known_ciphertext)

namespace HillCipher

/-- `HillCipher.crack(known_plaintext, known_ciphertext)`. -/
def crack (known_plaintext known_ciphertext : List Int) : CrackResult :=
  if (prepare_text known_plaintext).length < 4 ∨ (prepare_text known_ciphertext).length < 4 then
    .tooShort crackTooShortMsg false
  else
    let min_len := truncLen known_plaintext known_ciphertext
    let pt := truncPT known_plaintext known_ciphertext
    let ct := truncCT known_plaintext known_ciphertext
    match crackLoop pt ct (crackPositions min_len) with
    | (tried, none) => .exhausted crackExhaustedMsg false tried crackSuggestionMsg
    | (tried, some res) =>
        let venc := hillResultOf (encrypt pt res.key_matrix)
        let is_correct := venc == ct
        .found is_correct res.key_matrix pt ct res.position res.used_plaintext
          res.used_ciphertext venc ct is_correct tried

end HillCipher

/-! ## Arithmetic kernel lemmas -/

theorem mod_eq_emod (n m : Int) : mod n m = n % m := by
  simp [mod]

theorem mod26_nonneg (n : Int) : 0 ≤ mod n 26 := by
  rw [mod_eq_emod]; omega

theorem mod26_lt (n : Int) : mod n 26 < 26 := by
  rw [mod_eq_emod]; omega

theorem mod26_idem (n : Int) : mod (mod n 26) 26 = mod n 26 := by
  simp [mod_eq_emod]

/-- The Euclidean loop computes the gcd (given enough fuel). -/
theorem gcdAux_eq_gcd : ∀ fuel a b : Nat, b < fuel → gcdAux fuel a b = Nat.gcd a b
  | 0, _, _, h => absurd h (Nat.not_lt_zero _)
  | fuel + 1, a, b, h => by
    rw [gcdAux]
    by_cases hb : b = 0
    · simp [hb]
    · rw [if_neg hb, gcdAux_eq_gcd fuel b (a % b)
        (by have := Nat.mod_lt a (y := b) (by omega); omega)]
      rw [Nat.gcd_comm b (a % b), ← Nat.gcd_rec b a, Nat.gcd_comm b a]

theorem gcd_eq_intGcd (a b : Int) : gcd a b = (Int.gcd a b : Nat) := by
  unfold gcd
  rw [gcdAux_eq_gcd _ _ _ (Nat.lt_succ_self _)]
  rfl

/-- Bezout identity of `extended_gcd` (it holds for every fuel value because
the fuel-exhausted result coincides with the base case). -/
theorem extended_gcdAux_bezout :
    ∀ fuel (a b : Int),
      a * (extended_gcdAux fuel a b).2.1 + b * (extended_gcdAux fuel a b).2.2
        = (extended_gcdAux fuel a b).1
  | 0, a, b => by simp [extended_gcdAux]
  | fuel + 1, a, b => by
    by_cases ha : a = 0
    · simp [extended_gcdAux, ha]
    · simp only [extended_gcdAux, if_neg ha]
      have ih := extended_gcdAux_bezout fuel (b % a) a
      set t := extended_gcdAux fuel (b % a) a with ht
      have hd : b % a = b - a * (b / a) := Int.emod_def b a
      rw [hd] at ih
      linear_combination ih

theorem extended_gcd_bezout (a b : Int) :
    a * (extended_gcd a b).2.1 + b * (extended_gcd a b).2.2 = (extended_gcd a b).1 :=
  extended_gcdAux_bezout _ a b

/-- With nonnegative arguments and sufficient fuel, the first component of
`extended_gcd` is a nonnegative common divisor of both arguments. -/
theorem extended_gcdAux_dvd :
    ∀ fuel (a b : Int), 0 ≤ a → 0 ≤ b → a.natAbs < fuel →
      (extended_gcdAux fuel a b).1 ∣ a ∧ (extended_gcdAux fuel a b).1 ∣ b ∧
        0 ≤ (extended_gcdAux fuel a b).1
  | 0, _, _, _, _, h => absurd h (Nat.not_lt_zero _)
  | fuel + 1, a, b, ha, hb, hfuel => by
    by_cases h0 : a = 0
    · simp [extended_gcdAux, h0, hb]
    · simp only [extended_gcdAux, if_neg h0]
      have hapos : 0 < a := lt_of_le_of_ne ha (Ne.symm h0)
      have hmodnn : 0 ≤ b % a := Int.emod_nonneg b h0
      have hmodlt : b % a < a := Int.emod_lt_of_pos b hapos
      have ih := extended_gcdAux_dvd fuel (b % a) a hmodnn ha (by omega)
      set t := extended_gcdAux fuel (b % a) a with ht
      refine ⟨ih.2.1, ?_, ih.2.2⟩
      have hd : b = a * (b / a) + b % a := (Int.ediv_add_emod b a).symm
      rw [hd]
      exact dvd_add (Dvd.dvd.mul_right ih.2.1 _) ih.1

theorem extended_gcd_dvd (a b : Int) (ha : 0 ≤ a) (hb : 0 ≤ b) :
    (extended_gcd a b).1 ∣ a ∧ (extended_gcd a b).1 ∣ b ∧ 0 ≤ (extended_gcd a b).1 :=
  extended_gcdAux_dvd _ a b ha hb (Nat.lt_succ_self _)

/-- If `mod_inverse` returns a value, it is a genuine modular inverse in
`[0, 26)`. -/
theorem mod_inverse_26_spec (a v : Int) (h : mod_inverse a 26 = some v) :
    mod (a * v) 26 = 1 ∧ 0 ≤ v ∧ v < 26 := by
  unfold mod_inverse at h
  by_cases hg : (extended_gcd (mod a 26) 26).1 ≠ 1
  · rw [if_pos hg] at h; cases h
  · rw [if_neg hg] at h
    push_neg at hg
    obtain rfl : mod (extended_gcd (mod a 26) 26).2.1 26 = v := Option.some.inj h
    refine ⟨?_, mod26_nonneg _, mod26_lt _⟩
    have hbez := extended_gcd_bezout (mod a 26) 26
    rw [hg] at hbez
    set x := (extended_gcd (mod a 26) 26).2.1 with hx
    set y := (extended_gcd (mod a 26) 26).2.2 with hy
    rw [mod_eq_emod] at hbez
    rw [mod_eq_emod, mod_eq_emod]
    have h1 : a * (x % 26) % 26 = a % 26 * x % 26 := by
      conv_lhs => rw [Int.mul_emod]
      conv_rhs => rw [Int.mul_emod]
      simp
    have h3 : a % 26 * x = 1 + 26 * (-y) := by linarith
    rw [h1, h3, Int.add_mul_emod_self_left]
    decide

/-- `mod_inverse a 26` fails exactly when no modular inverse exists. -/
theorem mod_inverse_none_iff (a : Int) :
    mod_inverse a 26 = none ↔ ¬ ∃ v, mod (a * v) 26 = 1 := by
  constructor
  · intro hnone
    rintro ⟨v, hv⟩
    have hg : (extended_gcd (mod a 26) 26).1 ≠ 1 := by
      by_contra hg1
      unfold mod_inverse at hnone
      rw [if_neg (by simpa using hg1)] at hnone
      cases hnone
    have hd := extended_gcd_dvd (mod a 26) 26 (mod26_nonneg a) (by norm_num)
    have hga : (extended_gcd (mod a 26) 26).1 ∣ a := by
      have hsplit : a = mod a 26 + 26 * (a / 26) := by rw [mod_eq_emod]; omega
      have hs : (extended_gcd (mod a 26) 26).1 ∣ mod a 26 + 26 * (a / 26) :=
        dvd_add hd.1 (Dvd.dvd.mul_right hd.2.1 _)
      rwa [← hsplit] at hs
    have h1 : (extended_gcd (mod a 26) 26).1 ∣ 1 := by
      rw [mod_eq_emod] at hv
      have hone : (1 : Int) = a * v - 26 * (a * v / 26) := by omega
      rw [hone]
      exact dvd_sub (hga.mul_right v) (Dvd.dvd.mul_right hd.2.1 _)
    exact hg (Int.eq_one_of_dvd_one hd.2.2 h1)
  · intro hnex
    cases heq : mod_inverse a 26 with
    | none => rfl
    | some v => exact absurd ⟨v, (mod_inverse_26_spec a v heq).1⟩ hnex

/-- A key whose gcd with 26 is 1 (as computed by the repository's `gcd`)
always has a modular inverse. -/
theorem mod_inverse_some_of_gcd (a : Int) (h : gcd a 26 = 1) :
    ∃ v, mod_inverse a 26 = some v := by
  have hd := extended_gcd_dvd (mod a 26) 26 (mod26_nonneg a) (by norm_num)
  have hga : (extended_gcd (mod a 26) 26).1 ∣ a := by
    have hsplit : a = mod a 26 + 26 * (a / 26) := by rw [mod_eq_emod]; omega
    have hs : (extended_gcd (mod a 26) 26).1 ∣ mod a 26 + 26 * (a / 26) :=
      dvd_add hd.1 (Dvd.dvd.mul_right hd.2.1 _)
    rwa [← hsplit] at hs
  have hdg : (extended_gcd (mod a 26) 26).1 ∣ ((Int.gcd a 26 : Nat) : Int) :=
    Int.dvd_gcd hga hd.2.1
  rw [← gcd_eq_intGcd, h] at hdg
  have hg1 : (extended_gcd (mod a 26) 26).1 = 1 := Int.eq_one_of_dvd_one hd.2.2 hdg
  refine ⟨mod (extended_gcd (mod a 26) 26).2.1 26, ?_⟩
  unfold mod_inverse
  rw [if_neg (by simpa using hg1)]

/-- Congruence: reducing the two summands' left factors mod 26 first does not
change the result mod 26. -/
theorem mod26_addmul_cong (x y c d : Int) :
    mod (mod x 26 * c + mod y 26 * d) 26 = mod (x * c + y * d) 26 := by
  simp only [mod_eq_emod]
  exact ((Int.mod_modEq x 26).mul_right c).add ((Int.mod_modEq y 26).mul_right d)

/-- Congruence: reducing the right factor mod 26 first does not change the
result mod 26. -/
theorem mod26_mul_cong (c x : Int) : mod (c * mod x 26) 26 = mod (c * x) 26 := by
  simp only [mod_eq_emod]
  exact (Int.mod_modEq x 26).mul_left c

/-- Shape of a successful `matrix_inverse_mod_26`: the adjugate scaled by the
modular inverse of the determinant, entrywise mod 26. -/
theorem matrix_inverse_shape (M Mi : Mat2) (h : matrix_inverse_mod_26 M = some Mi) :
    ∃ det_inv, mod_inverse (mod (determinant_2x2 M) 26) 26 = some det_inv ∧
      Mi = ⟨mod (det_inv * M.m11) 26, mod (det_inv * (-M.m01)) 26,
            mod (det_inv * (-M.m10)) 26, mod (det_inv * M.m00) 26⟩ := by
  simp only [matrix_inverse_mod_26] at h
  cases heq : mod_inverse (mod (determinant_2x2 M) 26) 26 with
  | none => rw [heq] at h; cases h
  | some det_inv =>
    rw [heq] at h
    exact ⟨det_inv, rfl, (Option.some.inj h).symm⟩

/-- A successful `matrix_inverse_mod_26` is a genuine left inverse mod 26. -/
theorem matrix_inverse_correct (M Mi : Mat2) (h : matrix_inverse_mod_26 M = some Mi) :
    matrix_multiply_mod Mi M 26 = ⟨1, 0, 0, 1⟩ := by
  obtain ⟨det_inv, heq, rfl⟩ := matrix_inverse_shape M Mi h
  have hspec := (mod_inverse_26_spec _ _ heq).1
  simp only [matrix_multiply_mod, Mat2.mk.injEq]
  refine ⟨?_, ?_, ?_, ?_⟩
  · rw [mod26_addmul_cong,
      show det_inv * M.m11 * M.m00 + det_inv * (-M.m01) * M.m10
          = det_inv * determinant_2x2 M by unfold determinant_2x2; ring,
      ← mod26_mul_cong, mul_comm det_inv (mod (determinant_2x2 M) 26)]
    exact hspec
  · rw [mod26_addmul_cong,
      show det_inv * M.m11 * M.m01 + det_inv * (-M.m01) * M.m11 = (0 : Int) by ring]
    decide
  · rw [mod26_addmul_cong,
      show det_inv * (-M.m10) * M.m00 + det_inv * M.m00 * M.m10 = (0 : Int) by ring]
    decide
  · rw [mod26_addmul_cong,
      show det_inv * (-M.m10) * M.m01 + det_inv * M.m00 * M.m11
          = det_inv * determinant_2x2 M by unfold determinant_2x2; ring,
      ← mod26_mul_cong, mul_comm det_inv (mod (determinant_2x2 M) 26)]
    exact hspec

/-- A matrix that passes the repository's invertibility test has an inverse. -/
theorem matrix_inverse_isSome (M : Mat2)
    (h : gcd (mod (determinant_2x2 M) 26) 26 = 1) :
    ∃ Mi, matrix_inverse_mod_26 M = some Mi := by
  obtain ⟨v, hv⟩ := mod_inverse_some_of_gcd (mod (determinant_2x2 M) 26) h
  simp only [matrix_inverse_mod_26]
  rw [hv]
  exact ⟨_, rfl⟩

/-! ## Text-preparation lemmas -/

theorem list_map_eq_self {α : Type} (f : α → α) :
    ∀ l : List α, (∀ c ∈ l, f c = c) → l.map f = l
  | [], _ => rfl
  | c :: rest, h => by
    rw [List.map_cons, h c (by simp),
      list_map_eq_self f rest (fun x hx => h x (by simp [hx]))]

theorem upperChar_eq_self (c : Int) (h1 : 65 ≤ c) (h2 : c ≤ 90) : upperChar c = c := by
  unfold upperChar
  rw [if_neg]
  omega

theorem isalpha_of_upper (c : Int) (h1 : 65 ≤ c) (h2 : c ≤ 90) : isalpha c = true := by
  simp [isalpha]
  omega

theorem hill_prepare_eq_self (T : List Int) (h : ∀ c ∈ T, 65 ≤ c ∧ c ≤ 90)
    (he : T.length % 2 = 0) : HillCipher.prepare_text T = T := by
  unfold HillCipher.prepare_text
  rw [list_map_eq_self upperChar T (fun c hc => upperChar_eq_self c (h c hc).1 (h c hc).2)]
  rw [List.filter_eq_self.mpr (fun c hc => isalpha_of_upper c (h c hc).1 (h c hc).2)]
  simp [he]

theorem t2v_v2t : ∀ vs : List (Int × Int),
    HillCipher.text_to_vectors (HillCipher.vectors_to_text vs) = vs
  | [] => rfl
  | v :: rest => by
    simp [HillCipher.vectors_to_text, HillCipher.text_to_vectors, t2v_v2t rest]

theorem v2t_t2v : ∀ T : List Int, T.length % 2 = 0 →
    HillCipher.vectors_to_text (HillCipher.text_to_vectors T) = T
  | [], _ => rfl
  | [c], h => by simp at h
  | c1 :: c2 :: rest, h => by
    have hr : rest.length % 2 = 0 := by simp at h; omega
    simp [HillCipher.text_to_vectors, HillCipher.vectors_to_text, v2t_t2v rest hr]

theorem t2v_bounds : ∀ T : List Int, (∀ c ∈ T, 65 ≤ c ∧ c ≤ 90) →
    ∀ v ∈ HillCipher.text_to_vectors T, 0 ≤ v.1 ∧ v.1 < 26 ∧ 0 ≤ v.2 ∧ v.2 < 26
  | [], _ => by simp [HillCipher.text_to_vectors]
  | [c], _ => by simp [HillCipher.text_to_vectors]
  | c1 :: c2 :: rest, h => by
    intro v hv
    rw [HillCipher.text_to_vectors] at hv
    rcases List.mem_cons.mp hv with rfl | hmem
    · have h1 := h c1 (by simp)
      have h2 := h c2 (by simp)
      simp only
      omega
    · exact t2v_bounds rest (fun c hc => h c (by simp [hc])) v hmem

theorem v2t_chars : ∀ vs : List (Int × Int),
    (∀ v ∈ vs, 0 ≤ v.1 ∧ v.1 < 26 ∧ 0 ≤ v.2 ∧ v.2 < 26) →
    ∀ c ∈ HillCipher.vectors_to_text vs, 65 ≤ c ∧ c ≤ 90
  | [], _ => by simp [HillCipher.vectors_to_text]
  | v :: rest, h => by
    intro c hc
    rw [HillCipher.vectors_to_text] at hc
    have hv := h v (by simp)
    rcases List.mem_cons.mp hc with rfl | hc2
    · omega
    · rcases List.mem_cons.mp hc2 with rfl | hc3
      · omega
      · exact v2t_chars rest (fun w hw => h w (by simp [hw])) c hc3

theorem v2t_even : ∀ vs : List (Int × Int),
    (HillCipher.vectors_to_text vs).length % 2 = 0
  | [] => rfl
  | v :: rest => by
    rw [HillCipher.vectors_to_text]
    have := v2t_even rest
    simp only [List.length_cons]
    omega

/-! ## Matrix-action lemmas -/

theorem mvMul_bounds (M : Mat2) (v : Int × Int) :
    0 ≤ (matrix_vector_multiply_mod M v 26).1 ∧ (matrix_vector_multiply_mod M v 26).1 < 26 ∧
    0 ≤ (matrix_vector_multiply_mod M v 26).2 ∧ (matrix_vector_multiply_mod M v 26).2 < 26 :=
  ⟨mod26_nonneg _, mod26_lt _, mod26_nonneg _, mod26_lt _⟩

/-- Congruence partner of `mod26_addmul_cong` with the reduced factors on the
right of each product. -/
theorem mod26_muladd_cong (c d x y : Int) :
    mod (c * mod x 26 + d * mod y 26) 26 = mod (c * x + d * y) 26 := by
  simp only [mod_eq_emod]
  exact ((Int.mod_modEq x 26).mul_left c).add ((Int.mod_modEq y 26).mul_left d)

/-- Applying two matrices in sequence mod 26 is applying their product. -/
theorem mvMul_comp (A B : Mat2) (v : Int × Int) :
    matrix_vector_multiply_mod A (matrix_vector_multiply_mod B v 26) 26
      = matrix_vector_multiply_mod (matrix_multiply_mod A B 26) v 26 := by
  simp only [matrix_vector_multiply_mod, matrix_multiply_mod, Prod.mk.injEq]
  constructor
  · rw [mod26_muladd_cong, mod26_addmul_cong]
    congr 1
    ring
  · rw [mod26_muladd_cong, mod26_addmul_cong]
    congr 1
    ring

/-- The identity matrix acts as the identity on reduced vectors. -/
theorem mvMul_id (v : Int × Int) (h : 0 ≤ v.1 ∧ v.1 < 26 ∧ 0 ≤ v.2 ∧ v.2 < 26) :
    matrix_vector_multiply_mod ⟨1, 0, 0, 1⟩ v 26 = v := by
  obtain ⟨x, y⟩ := v
  simp only [matrix_vector_multiply_mod, mod_eq_emod, Prod.mk.injEq]
  simp only at h
  constructor <;> omega

/-- A successful `matrix_inverse_mod_26` undoes the matrix action on reduced
vectors. -/
theorem mvMul_inv (M Mi : Mat2) (hM : matrix_inverse_mod_26 M = some Mi)
    (v : Int × Int) (h : 0 ≤ v.1 ∧ v.1 < 26 ∧ 0 ≤ v.2 ∧ v.2 < 26) :
    matrix_vector_multiply_mod Mi (matrix_vector_multiply_mod M v 26) 26 = v := by
  rw [mvMul_comp, matrix_inverse_correct M Mi hM, mvMul_id v h]

/-- C1: For every 2×2 integer key matrix `K` whose determinant mod 26 is
coprime with 26, and every letters-only even-length text `T` (letters are the
uppercase codes 65–90, the canonical form the cipher itself emits),
`HillCipher.decrypt(HillCipher.encrypt(T, K).result, K).result == T`. -/
theorem hill_encrypt_decrypt_round_trip (K : Mat2) (T : List Int)
    (hK : gcd (mod (determinant_2x2 K) 26) 26 = 1)
    (hT : ∀ c ∈ T, 65 ≤ c ∧ c ≤ 90)
    (hlen : T.length % 2 = 0) :
    hillResultOf (HillCipher.decrypt (hillResultOf (HillCipher.encrypt T K)) K) = T := by
  have hvalid : is_matrix_invertible_mod_26 K = true := by
    simp [is_matrix_invertible_mod_26, hK]
  obtain ⟨Ki, hKi⟩ := matrix_inverse_isSome K hK
  have hprep := hill_prepare_eq_self T hT hlen
  have henc : hillResultOf (HillCipher.encrypt T K)
      = HillCipher.vectors_to_text ((HillCipher.text_to_vectors T).map
          (fun vec => matrix_vector_multiply_mod K vec 26)) := by
    simp [HillCipher.encrypt, HillCipher.validate_matrix, hvalid, hprep, hillResultOf]
  have hct_chars : ∀ c ∈ HillCipher.vectors_to_text ((HillCipher.text_to_vectors T).map
      (fun vec => matrix_vector_multiply_mod K vec 26)), 65 ≤ c ∧ c ≤ 90 := by
    apply v2t_chars
    intro v hv
    obtain ⟨w, hw, rfl⟩ := List.mem_map.mp hv
    exact mvMul_bounds K w
  have hct_even := v2t_even ((HillCipher.text_to_vectors T).map
      (fun vec => matrix_vector_multiply_mod K vec 26))
  have hprep2 := hill_prepare_eq_self _ hct_chars hct_even
  have hdec : hillResultOf (HillCipher.decrypt (HillCipher.vectors_to_text
      ((HillCipher.text_to_vectors T).map (fun vec => matrix_vector_multiply_mod K vec 26))) K)
      = HillCipher.vectors_to_text ((HillCipher.text_to_vectors (HillCipher.vectors_to_text
          ((HillCipher.text_to_vectors T).map (fun vec => matrix_vector_multiply_mod K vec 26)))).map
          (fun vec => matrix_vector_multiply_mod Ki vec 26)) := by
    simp [HillCipher.decrypt, HillCipher.validate_matrix, hvalid, hKi, hprep2, hillResultOf]
  rw [henc, hdec, t2v_v2t, List.map_map]
  simp only [Function.comp_def]
  rw [list_map_eq_self _ _ (fun v hv => mvMul_inv K Ki hKi v (t2v_bounds T hT v hv)),
    v2t_t2v T hlen]

/-- Witness for C1 at `K = [[3,3],[2,5]]` and `T = "CRYPTO"`. -/
theorem hill_encrypt_decrypt_round_trip_witness :
    hillResultOf (HillCipher.decrypt (hillResultOf (HillCipher.encrypt
      [67, 82, 89, 80, 84, 79] ⟨3, 3, 2, 5⟩)) ⟨3, 3, 2, 5⟩) = [67, 82, 89, 80, 84, 79] :=
  hill_encrypt_decrypt_round_trip ⟨3, 3, 2, 5⟩ [67, 82, 89, 80, 84, 79]
    (by decide) (by decide) (by decide)

/-- C6: For every shift `s` in `[0, 25]` and every all-letters text `T`
(letters are the uppercase codes 65–90, the canonical form the cipher itself
emits), `CaesarCipher.decrypt(CaesarCipher.encrypt(T, s).result, s).result
== T`. -/
theorem caesar_encrypt_decrypt_round_trip (s : Int) (T : List Int)
    (hs1 : 0 ≤ s) (hs2 : s ≤ 25)
    (hT : ∀ c ∈ T, 65 ≤ c ∧ c ≤ 90) :
    (CaesarCipher.decrypt (CaesarCipher.encrypt T s).result s).result = T := by
  have hnorm : mod s 26 = s := by rw [mod_eq_emod]; omega
  have h1 : T.map upperChar = T :=
    list_map_eq_self upperChar T (fun c hc => upperChar_eq_self c (hT c hc).1 (hT c hc).2)
  simp only [CaesarCipher.encrypt, CaesarCipher.decrypt, hnorm, h1]
  rw [List.map_map, List.map_map]
  simp only [Function.comp_def]
  apply list_map_eq_self
  intro c hc
  obtain ⟨hc1, hc2⟩ := hT c hc
  rw [caesarShift, if_pos (isalpha_of_upper c hc1 hc2)]
  have hb1 := mod26_nonneg (c - 65 + s)
  have hb2 := mod26_lt (c - 65 + s)
  rw [upperChar_eq_self _ (by omega) (by omega)]
  rw [caesarUnshift, if_pos (isalpha_of_upper _ (by omega) (by omega))]
  simp only [mod_eq_emod] at *
  omega

/-- Witness for C6 at `s = 7` and `T = "ZEBRA"`. -/
theorem caesar_encrypt_decrypt_round_trip_witness :
    (CaesarCipher.decrypt (CaesarCipher.encrypt [90, 69, 66, 82, 65] 7).result 7).result
      = [90, 69, 66, 82, 65] :=
  caesar_encrypt_decrypt_round_trip 7 [90, 69, 66, 82, 65]
    (by decide) (by decide) (by decide)

/-- C4 counterexample: the multiplicative key is NOT validated against the
fixed 12-element set.  `a = 27` lies outside `VALID_A_VALUES` (whose members
are all in `[1, 25]`), yet `AffineCipher.encrypt` returns a successful
result, because the code validates by `gcd(a, 26) == 1`. -/
theorem affine_valid_set_counterexample :
    (27 : Int) ∉ AffineCipher.VALID_A_VALUES ∧
    AffineCipher.encrypt [65] 27 0 = .ok ⟨[65], 27, 0, some 1, "encrypt"⟩ :=
  ⟨by decide, rfl⟩

/-- C4 (amended): `AffineCipher.encrypt` (and `decrypt`) validates the
multiplicative key `a` by `gcd(a, 26) = 1` — a test that coincides with
membership in the fixed 12-element set `VALID_A_VALUES` for `a` in `[1, 25]`:
for every `a` with `gcd(a, 26) ≠ 1` the operation returns a validation error
record (message plus the valid values, no partial result), and for every `a`
with `gcd(a, 26) = 1` it returns a successful result. -/
theorem affine_key_validation (text : List Int) (a b : Int) :
    (gcd a 26 = 1 →
      (∃ r, AffineCipher.encrypt text a b = .ok r) ∧
      (∃ r, AffineCipher.decrypt text a b = .ok r))
    ∧ (gcd a 26 ≠ 1 →
      AffineCipher.encrypt text a b
          = .error ⟨affineInvalidKeyMsg a, AffineCipher.VALID_A_VALUES⟩ ∧
      AffineCipher.decrypt text a b
          = .error ⟨affineInvalidKeyMsg a, AffineCipher.VALID_A_VALUES⟩)
    ∧ (1 ≤ a → a ≤ 25 → (gcd a 26 = 1 ↔ a ∈ AffineCipher.VALID_A_VALUES)) := by
  refine ⟨?_, ?_, ?_⟩
  · intro h
    have hvalid : AffineCipher.is_valid_key a = true := by
      simp [AffineCipher.is_valid_key, h]
    constructor
    · simp only [AffineCipher.encrypt, hvalid, if_true]
      exact ⟨_, rfl⟩
    · obtain ⟨v, hv⟩ := mod_inverse_some_of_gcd a h
      simp only [AffineCipher.decrypt, hvalid, if_true, AffineCipher.get_inverse, hv]
      exact ⟨_, rfl⟩
  · intro h
    have hvalid : AffineCipher.is_valid_key a = false := by
      simp [AffineCipher.is_valid_key, h]
    constructor
    · simp only [AffineCipher.encrypt, hvalid, Bool.false_eq_true, if_false]
    · simp only [AffineCipher.decrypt, hvalid, Bool.false_eq_true, if_false]
  · intro h1 h2
    interval_cases a <;> decide

/-- Witness for C4 (amended) at `a = 5` (valid) and `a = 4` (invalid),
`b = 8`, text `"HI"`. -/
theorem affine_key_validation_witness :
    (∃ r, AffineCipher.encrypt [72, 73] 5 8 = .ok r) ∧
    AffineCipher.encrypt [72, 73] 4 8
      = .error ⟨affineInvalidKeyMsg 4, AffineCipher.VALID_A_VALUES⟩ :=
  ⟨((affine_key_validation [72, 73] 5 8).1 (by decide)).1,
   ((affine_key_validation [72, 73] 4 8).2.1 (by decide)).1⟩

/-! ## Playfair key-square lemmas -/

theorem addUnique_mem (acc : List Int) (c x : Int) :
    x ∈ addUnique acc c ↔ x ∈ acc ∨ x = c := by
  unfold addUnique
  split_ifs with h
  · constructor
    · exact Or.inl
    · rintro (hx | rfl)
      · exact hx
      · exact h
  · simp

theorem addUnique_nodup (acc : List Int) (c : Int) (h : acc.Nodup) :
    (addUnique acc c).Nodup := by
  unfold addUnique
  split_ifs with hc
  · exact h
  · rw [List.nodup_append]
    refine ⟨h, List.nodup_singleton c, ?_⟩
    intro a ha hb
    rw [List.mem_singleton] at hb
    exact hc (hb ▸ ha)

theorem foldl_addUnique_mem : ∀ (l acc : List Int) (x : Int),
    x ∈ l.foldl addUnique acc ↔ x ∈ acc ∨ x ∈ l
  | [], acc, x => by simp
  | c :: rest, acc, x => by
    rw [List.foldl_cons, foldl_addUnique_mem rest _ x, addUnique_mem, List.mem_cons]
    tauto

theorem foldl_addUnique_nodup : ∀ (l acc : List Int), acc.Nodup → (l.foldl addUnique acc).Nodup
  | [], _, h => h
  | c :: rest, acc, h => by
    rw [List.foldl_cons]
    exact foldl_addUnique_nodup rest _ (addUnique_nodup acc c h)

theorem mem_alphabet25 (z : Int) (h1 : 65 ≤ z) (h2 : z ≤ 90) (h3 : z ≠ 74) :
    z ∈ alphabet25 := by
  simp only [alphabet25, List.mem_cons, List.not_mem_nil, or_false]
  omega

/-- Every character that survives the keyword cleaning (uppercase, J folded
to I, letters only) is one of the 25 key-square letters. -/
theorem clean_mem_alphabet25 (e : Int) (h : isalpha (foldJ (upperChar e)) = true) :
    foldJ (upperChar e) ∈ alphabet25 := by
  apply mem_alphabet25 <;>
  · simp only [isalpha, foldJ, upperChar, Bool.or_eq_true, Bool.and_eq_true,
      decide_eq_true_eq] at h ⊢
    split_ifs at h ⊢ <;> omega

theorem matrixChars_mem (k : List Int) (x : Int) :
    x ∈ matrixChars k ↔ x ∈ alphabet25 := by
  unfold matrixChars
  rw [foldl_addUnique_mem, foldl_addUnique_mem]
  simp only [List.not_mem_nil, false_or]
  constructor
  · rintro (hx | hx)
    · obtain ⟨hmem, halpha⟩ := List.mem_filter.mp hx
      obtain ⟨d, hd, rfl⟩ := List.mem_map.mp hmem
      obtain ⟨e, he, rfl⟩ := List.mem_map.mp hd
      exact clean_mem_alphabet25 e halpha
    · exact hx
  · exact Or.inr

theorem matrixChars_nodup (k : List Int) : (matrixChars k).Nodup :=
  foldl_addUnique_nodup _ _ (foldl_addUnique_nodup _ _ List.nodup_nil)

theorem matrixChars_perm (k : List Int) : List.Perm (matrixChars k) alphabet25 := by
  apply List.perm_of_nodup_nodup_toFinset_eq (matrixChars_nodup k) (by decide)
  ext x
  simp [List.mem_toFinset, matrixChars_mem]

theorem matrixChars_length (k : List Int) : (matrixChars k).length = 25 := by
  rw [(matrixChars_perm k).length_eq]
  rfl

/-- Gluing the five row slices back together recovers a 25-element list. -/
theorem chunks_join (cs : List Int) (h : cs.length = 25) :
    cs.take 5 ++ ((cs.drop 5).take 5 ++ ((cs.drop 10).take 5 ++
      ((cs.drop 15).take 5 ++ ((cs.drop 20).take 5 ++ [])))) = cs := by
  have k4 : (cs.drop 20).take 5 = cs.drop 20 :=
    List.take_of_length_le (by simp [h])
  have k3 : (cs.drop 15).take 5 ++ cs.drop 20 = cs.drop 15 := by
    have hsplit := List.take_append_drop 5 (cs.drop 15)
    rw [List.drop_drop] at hsplit
    norm_num at hsplit
    exact hsplit
  have k2 : (cs.drop 10).take 5 ++ cs.drop 15 = cs.drop 10 := by
    have hsplit := List.take_append_drop 5 (cs.drop 10)
    rw [List.drop_drop] at hsplit
    norm_num at hsplit
    exact hsplit
  have k1 : (cs.drop 5).take 5 ++ cs.drop 10 = cs.drop 5 := by
    have hsplit := List.take_append_drop 5 (cs.drop 5)
    rw [List.drop_drop] at hsplit
    norm_num at hsplit
    exact hsplit
  rw [List.append_nil, k4, k3, k2, k1, List.take_append_drop]

theorem generate_matrix_join (k : List Int) :
    (PlayfairCipher.generate_matrix k).flatten = matrixChars k := by
  simp only [PlayfairCipher.generate_matrix, List.flatten_cons, List.flatten_nil]
  exact chunks_join _ (matrixChars_length k)

/-- C7: For every keyword, `PlayfairCipher.generate_matrix` returns a 5×5
grid in which every letter A–Z except J appears exactly once (25 distinct
letters, no duplicates), and the result is deterministic: equal keywords
produce equal grids. -/
theorem playfair_generate_matrix_invariant (keyword : List Int) :
    (PlayfairCipher.generate_matrix keyword).length = 5
    ∧ (∀ row ∈ PlayfairCipher.generate_matrix keyword, row.length = 5)
    ∧ ((PlayfairCipher.generate_matrix keyword).flatten).Nodup
    ∧ ((PlayfairCipher.generate_matrix keyword).flatten).length = 25
    ∧ (∀ c ∈ alphabet25, ((PlayfairCipher.generate_matrix keyword).flatten).count c = 1)
    ∧ (∀ c ∈ (PlayfairCipher.generate_matrix keyword).flatten, c ∈ alphabet25)
    ∧ (∀ keyword2 : List Int, keyword2 = keyword →
        PlayfairCipher.generate_matrix keyword2 = PlayfairCipher.generate_matrix keyword) := by
  have hj := generate_matrix_join keyword
  have hperm := matrixChars_perm keyword
  have hlen := matrixChars_length keyword
  refine ⟨by simp [PlayfairCipher.generate_matrix], ?_, ?_, ?_, ?_, ?_, ?_⟩
  · intro row hr
    simp only [PlayfairCipher.generate_matrix] at hr
    generalize hG : matrixChars keyword = cs at hr hlen
    simp only [List.mem_cons, List.not_mem_nil, or_false] at hr
    rcases hr with rfl | rfl | rfl | rfl | rfl <;>
      simp [List.length_take, List.length_drop, hlen]
  · rw [hj]
    exact matrixChars_nodup keyword
  · rw [hj, hlen]
  · intro c hc
    rw [hj, hperm.count_eq]
    exact List.count_eq_one_of_mem (by decide) hc
  · intro c hc
    rw [hj] at hc
    exact (matrixChars_mem keyword c).mp hc
  · intro k2 h
    rw [h]

/-- C8: For every 2×2 integer matrix `M`, the matrix inverse operation is a
total function (it never raises): it returns `none` exactly when no modular
inverse of `det(M) mod 26` exists, and otherwise returns the adjugate
`[[M11,-M01],[-M10,M00]]` scaled by the determinant's modular inverse with
every entry reduced into `[0, 26)`, so that the returned matrix times `M` is
the identity mod 26. -/
theorem matrix_inverse_mod_26_full_spec (M : Mat2) :
    (matrix_inverse_mod_26 M = none ↔
      ¬ ∃ v, mod (mod (determinant_2x2 M) 26 * v) 26 = 1)
    ∧ ∀ Minv, matrix_inverse_mod_26 M = some Minv →
        (∃ det_inv, mod_inverse (mod (determinant_2x2 M) 26) 26 = some det_inv ∧
          Minv = ⟨mod (det_inv * M.m11) 26, mod (det_inv * (-M.m01)) 26,
                  mod (det_inv * (-M.m10)) 26, mod (det_inv * M.m00) 26⟩)
        ∧ (0 ≤ Minv.m00 ∧ Minv.m00 < 26 ∧ 0 ≤ Minv.m01 ∧ Minv.m01 < 26 ∧
           0 ≤ Minv.m10 ∧ Minv.m10 < 26 ∧ 0 ≤ Minv.m11 ∧ Minv.m11 < 26)
        ∧ matrix_multiply_mod Minv M 26 = ⟨1, 0, 0, 1⟩ := by
  constructor
  · have hnone := mod_inverse_none_iff (mod (determinant_2x2 M) 26)
    constructor
    · intro h
      apply hnone.mp
      simp only [matrix_inverse_mod_26] at h
      cases heq : mod_inverse (mod (determinant_2x2 M) 26) 26 with
      | none => rfl
      | some d => rw [heq] at h; cases h
    · intro h
      simp only [matrix_inverse_mod_26]
      rw [hnone.mpr h]
  · intro Minv h
    obtain ⟨det_inv, heq, hform⟩ := matrix_inverse_shape M Minv h
    refine ⟨⟨det_inv, heq, hform⟩, ?_, matrix_inverse_correct M Minv h⟩
    rw [hform]
    exact ⟨mod26_nonneg _, mod26_lt _, mod26_nonneg _, mod26_lt _,
      mod26_nonneg _, mod26_lt _, mod26_nonneg _, mod26_lt _⟩

/-- Witness for C8 at `M = [[3,3],[2,5]]` (invertible) and
`M = [[1,0],[0,2]]` (singular: the determinant 2 shares the factor 2 with
26). -/
theorem matrix_inverse_mod_26_full_spec_witness :
    matrix_multiply_mod ⟨15, 17, 20, 9⟩ ⟨3, 3, 2, 5⟩ 26 = ⟨1, 0, 0, 1⟩
    ∧ matrix_inverse_mod_26 ⟨1, 0, 0, 2⟩ = none :=
  ⟨((matrix_inverse_mod_26_full_spec ⟨3, 3, 2, 5⟩).2 ⟨15, 17, 20, 9⟩ (by decide)).2.2,
   (matrix_inverse_mod_26_full_spec ⟨1, 0, 0, 2⟩).1.mpr (by
     rintro ⟨v, hv⟩
     simp only [determinant_2x2, mod_eq_emod] at hv
     omega)⟩

/-- C2: For plaintext `"HELP"` (`[72,69,76,80]`) and key matrix
`K = [[3,3],[2,5]]`, with ciphertext the result of `HillCipher.encrypt`
(namely `"HIAT"`), `HillCipher.crack` returns exactly `K` as `key_matrix`
with `success = true` (here proved as the full returned record). -/
theorem hill_crack_recovers_key_help :
    HillCipher.crack [72, 69, 76, 80]
      (hillResultOf (HillCipher.encrypt [72, 69, 76, 80] ⟨3, 3, 2, 5⟩))
      = .found true ⟨3, 3, 2, 5⟩ [72, 69, 76, 80] [72, 73, 65, 84] 0 [72, 69, 76, 80]
          [72, 73, 65, 84] [72, 73, 65, 84] [72, 73, 65, 84] true
          [acceptEntry [72, 69, 76, 80] [72, 73, 65, 84] 0] := by decide

/-- C5: Playfair round trip for keyword `"PLAYFAIR"` and plaintext `"HELLO"`:
decrypting the encryption returns the prepared form `"HELXLO"` — the repeated
pair `LL` is broken by the filler `X` (`"LX"`) and the second `L` re-pairs
with the following `O` (`"LO"`), exactly as `prepare_text` documents. -/
theorem playfair_round_trip_hello :
    (PlayfairCipher.decrypt
        (PlayfairCipher.encrypt [72, 69, 76, 76, 79] [80, 76, 65, 89, 70, 65, 73, 82]).result
        [80, 76, 65, 89, 70, 65, 73, 82]).result = [72, 69, 76, 88, 76, 79]
    ∧ PlayfairCipher.prepare_text [72, 69, 76, 76, 79] = [(72, 69), (76, 88), (76, 79)] := by
  decide

/-- C10: On input `"XX"` (`[88,88]`), `PlayfairCipher.prepare_text` produces
digraphs whose two characters are identical, because the inserted filler `X`
equals the repeated letter itself: preparation does not guarantee that every
digraph consists of two distinct letters. -/
theorem playfair_prepare_xx_identical_digraph :
    PlayfairCipher.prepare_text [88, 88] = [(88, 88), (88, 88)]
    ∧ ¬ (∀ d ∈ PlayfairCipher.prepare_text [88, 88], d.1 ≠ d.2) := by
  decide

/-! ## Key-recovery search lemmas -/

/-- A window whose plaintext matrix is not invertible mod 26 is rejected. -/
theorem try_none_of_gcd (pt ct : List Int) (pos : Nat)
    (h : gcd (mod (determinant_2x2 (windowMat pt pos)) 26) 26 ≠ 1) :
    HillCipher._try_crack_at_position pt ct pos = none := by
  simp only [HillCipher._try_crack_at_position]
  split_ifs with h1 <;> rfl

/-- A full-length window whose plaintext matrix is invertible mod 26 yields
the candidate key `C · P⁻¹ mod 26`. -/
theorem try_some_of_gcd (pt ct : List Int) (pos : Nat)
    (hlp : 4 ≤ ((pt.drop pos).take 4).length) (hlc : 4 ≤ ((ct.drop pos).take 4).length)
    (hg : gcd (mod (determinant_2x2 (windowMat pt pos)) 26) 26 = 1) :
    ∃ P_inv, matrix_inverse_mod_26 (windowMat pt pos) = some P_inv ∧
      HillCipher._try_crack_at_position pt ct pos = some
        ⟨pos, (pt.drop pos).take 4, (ct.drop pos).take 4,
         matrix_multiply_mod (windowMat ct pos) P_inv 26,
         windowMat pt pos, windowMat ct pos, P_inv,
         determinant_2x2 (windowMat pt pos), mod (determinant_2x2 (windowMat pt pos)) 26⟩ := by
  obtain ⟨Pi, hPi⟩ := matrix_inverse_isSome (windowMat pt pos) hg
  refine ⟨Pi, hPi, ?_⟩
  simp only [HillCipher._try_crack_at_position]
  rw [if_neg (by omega), if_neg (not_not.mpr hg), hPi]

/-- If every scanned offset is rejected, the loop logs them all and finds
nothing. -/
theorem crackLoop_all_none (pt ct : List Int) :
    ∀ ps : List Nat, (∀ p ∈ ps, HillCipher._try_crack_at_position pt ct p = none) →
      crackLoop pt ct ps = (ps.map (rejectEntry pt ct), none)
  | [], _ => rfl
  | pos :: rest, h => by
    simp only [crackLoop, h pos (by simp),
      crackLoop_all_none pt ct rest (fun p hp => h p (by simp [hp])), List.map_cons]

/-- If the offsets before `q` are all rejected and `q` is accepted, the loop
logs exactly the rejections followed by the acceptance, commits to `q`, and
never looks at the offsets after `q`. -/
theorem crackLoop_found (pt ct : List Int) (q : Nat) (tail : List Nat) (att : CrackAttempt)
    (hq : HillCipher._try_crack_at_position pt ct q = some att) :
    ∀ ps : List Nat, (∀ p ∈ ps, HillCipher._try_crack_at_position pt ct p = none) →
      crackLoop pt ct (ps ++ q :: tail)
        = (ps.map (rejectEntry pt ct) ++ [acceptEntry pt ct q], some att)
  | [], _ => by
    simp only [List.nil_append, crackLoop, hq, List.map_nil]
  | pos :: rest, h => by
    simp only [List.cons_append, crackLoop, h pos (by simp), List.append_eq,
      crackLoop_found pt ct q tail att hq rest (fun p hp => h p (by simp [hp])),
      List.map_cons]

theorem truncPT_length (kpt kct : List Int) :
    (truncPT kpt kct).length = truncLen kpt kct := by
  simp only [truncPT, List.length_take, truncLen]
  omega

theorem truncCT_length (kpt kct : List Int) :
    (truncCT kpt kct).length = truncLen kpt kct := by
  simp only [truncCT, List.length_take, truncLen]
  omega

/-- C9: If no even offset from 0 up to `length - 4` of the truncated
prepared texts has an invertible plaintext matrix mod 26, `HillCipher.crack`
reports failure (`success = false` with the exhaustion error message and no
recovered key) together with the full log of rejected offsets — each entry
carrying its gcd reason — and the suggestion to supply a longer or more
varied sample. -/
theorem hill_crack_exhaustion (kpt kct : List Int)
    (h1 : 4 ≤ (HillCipher.prepare_text kpt).length)
    (h2 : 4 ≤ (HillCipher.prepare_text kct).length)
    (hnone : ∀ q, q < truncLen kpt kct - 3 → q % 2 = 0 →
      gcd (mod (determinant_2x2 (windowMat (truncPT kpt kct) q)) 26) 26 ≠ 1) :
    HillCipher.crack kpt kct = .exhausted crackExhaustedMsg false
      ((crackPositions (truncLen kpt kct)).map
        (rejectEntry (truncPT kpt kct) (truncCT kpt kct)))
      crackSuggestionMsg := by
  have hall : ∀ p ∈ crackPositions (truncLen kpt kct),
      HillCipher._try_crack_at_position (truncPT kpt kct) (truncCT kpt kct) p = none := by
    intro p hp
    simp only [crackPositions] at hp
    rw [List.mem_range'] at hp
    obtain ⟨i, hi, rfl⟩ := hp
    exact try_none_of_gcd _ _ _ (hnone (0 + 2 * i) (by omega) (by omega))
  simp only [HillCipher.crack]
  rw [if_neg (by omega), crackLoop_all_none _ _ _ hall]

/-- Witness for C9: plaintext `"AAAA"`, ciphertext `"BBBB"` — the only
window has determinant 0 and is rejected, so `crack` exhausts the search. -/
theorem hill_crack_exhaustion_witness :
    HillCipher.crack [65, 65, 65, 65] [66, 66, 66, 66]
      = .exhausted crackExhaustedMsg false
          [rejectEntry [65, 65, 65, 65] [66, 66, 66, 66] 0] crackSuggestionMsg := by
  refine (hill_crack_exhaustion [65, 65, 65, 65] [66, 66, 66, 66]
    (by decide) (by decide) ?_).trans (by decide)
  intro p hp hpe
  have hb : truncLen [65, 65, 65, 65] [66, 66, 66, 66] - 3 = 1 := by decide
  rw [hb] at hp
  have hp0 : p = 0 := by omega
  subst hp0
  decide

/-- C3: `HillCipher.crack` commits to the first even offset `q` at which the
plaintext window matrix is invertible mod 26: the positions log covers
exactly the even offsets up to `q` (no further offsets are tried), the
candidate key `K = C · P⁻¹ mod 26` is verified by re-encrypting the entire
truncated known plaintext, `verification_expected`/`verification_encrypted`
carry the expected and actual values, and `success` is exactly the equality
test of the two — on mismatch the result is still the `found` record with
`success = false`, not an error record. -/
theorem hill_crack_first_invertible_offset (kpt kct : List Int)
    (h1 : 4 ≤ (HillCipher.prepare_text kpt).length)
    (h2 : 4 ≤ (HillCipher.prepare_text kct).length)
    (q : Nat)
    (hq : q < truncLen kpt kct - 3)
    (heven : q % 2 = 0)
    (hinv : gcd (mod (determinant_2x2 (windowMat (truncPT kpt kct) q)) 26) 26 = 1)
    (hbefore : ∀ r, r < q → r % 2 = 0 →
      gcd (mod (determinant_2x2 (windowMat (truncPT kpt kct) r)) 26) 26 ≠ 1) :
    ∃ P_inv, matrix_inverse_mod_26 (windowMat (truncPT kpt kct) q) = some P_inv ∧
      HillCipher.crack kpt kct = .found
        (hillResultOf (HillCipher.encrypt (truncPT kpt kct)
            (matrix_multiply_mod (windowMat (truncCT kpt kct) q) P_inv 26)) == truncCT kpt kct)
        (matrix_multiply_mod (windowMat (truncCT kpt kct) q) P_inv 26)
        (truncPT kpt kct) (truncCT kpt kct) q
        (((truncPT kpt kct).drop q).take 4) (((truncCT kpt kct).drop q).take 4)
        (hillResultOf (HillCipher.encrypt (truncPT kpt kct)
            (matrix_multiply_mod (windowMat (truncCT kpt kct) q) P_inv 26)))
        (truncCT kpt kct)
        (hillResultOf (HillCipher.encrypt (truncPT kpt kct)
            (matrix_multiply_mod (windowMat (truncCT kpt kct) q) P_inv 26)) == truncCT kpt kct)
        ((List.range' 0 (q / 2) 2).map (rejectEntry (truncPT kpt kct) (truncCT kpt kct))
          ++ [acceptEntry (truncPT kpt kct) (truncCT kpt kct) q]) := by
  have hptlen := truncPT_length kpt kct
  have hctlen := truncCT_length kpt kct
  have hlp : 4 ≤ (((truncPT kpt kct).drop q).take 4).length := by
    simp only [List.length_take, List.length_drop, hptlen]
    omega
  have hlc : 4 ≤ (((truncCT kpt kct).drop q).take 4).length := by
    simp only [List.length_take, List.length_drop, hctlen]
    omega
  obtain ⟨Pi, hPi, htry⟩ := try_some_of_gcd (truncPT kpt kct) (truncCT kpt kct) q hlp hlc hinv
  refine ⟨Pi, hPi, ?_⟩
  have hsplit : crackPositions (truncLen kpt kct)
      = List.range' 0 (q / 2) 2
        ++ q :: List.range' (q + 2) ((truncLen kpt kct - 3 + 1) / 2 - q / 2 - 1) 2 := by
    rw [crackPositions,
      show (truncLen kpt kct - 3 + 1) / 2
          = (((truncLen kpt kct - 3 + 1) / 2 - q / 2 - 1) + 1) + q / 2 from by omega,
      ← List.range'_append 0 (q / 2) (((truncLen kpt kct - 3 + 1) / 2 - q / 2 - 1) + 1) 2,
      show 0 + 2 * (q / 2) = q from by omega,
      List.range'_succ,
      show (truncLen kpt kct - 3 + 1) / 2 - q / 2 - 1 + 1 + q / 2 - q / 2 - 1
          = (truncLen kpt kct - 3 + 1) / 2 - q / 2 - 1 from by omega]
  have hall : ∀ p ∈ List.range' 0 (q / 2) 2,
      HillCipher._try_crack_at_position (truncPT kpt kct) (truncCT kpt kct) p = none := by
    intro p hp
    rw [List.mem_range'] at hp
    obtain ⟨i, hi, rfl⟩ := hp
    exact try_none_of_gcd _ _ _ (hbefore (0 + 2 * i) (by omega) (by omega))
  simp only [HillCipher.crack]
  rw [if_neg (by omega), hsplit, crackLoop_found _ _ _ _ _ htry _ hall]

/-- Witness for C3: plaintext `"HELP"`, ciphertext `"AAAB"` — the first
window is invertible, the recovered candidate key `[[0,0],[14,21]]` is
singular, re-encryption yields an error record (empty result string), the
verification comparison fails, and `crack` reports `success = false` as a
`found` record, not an error. -/
theorem hill_crack_first_invertible_offset_witness :
    HillCipher.crack [72, 69, 76, 80] [65, 65, 65, 66]
      = .found false ⟨0, 0, 14, 21⟩ [72, 69, 76, 80] [65, 65, 65, 66] 0 [72, 69, 76, 80]
          [65, 65, 65, 66] [] [65, 65, 65, 66] false
          [acceptEntry [72, 69, 76, 80] [65, 65, 65, 66] 0] := by
  obtain ⟨Pi, hPi, hcrack⟩ := hill_crack_first_invertible_offset [72, 69, 76, 80]
    [65, 65, 65, 66] (by decide) (by decide) 0 (by decide) (by decide) (by decide)
    (fun r hr _ => absurd hr (Nat.not_lt_zero r))
  have hPiconc : Pi = ⟨19, 19, 14, 21⟩ := by
    have hconc : matrix_inverse_mod_26
        (windowMat (truncPT [72, 69, 76, 80] [65, 65, 65, 66]) 0) = some ⟨19, 19, 14, 21⟩ := by
      decide
    exact Option.some.inj (hPi.symm.trans hconc)
  subst hPiconc
  exact hcrack.trans (by decide)

/-- Witness for C7 at keyword `"MONARCHY"`. -/
theorem playfair_generate_matrix_invariant_witness :
    ((PlayfairCipher.generate_matrix [77, 79, 78, 65, 82, 67, 72, 89]).flatten).Nodup
    ∧ ((PlayfairCipher.generate_matrix [77, 79, 78, 65, 82, 67, 72, 89]).flatten).length = 25
    ∧ ((PlayfairCipher.generate_matrix [77, 79, 78, 65, 82, 67, 72, 89]).flatten).count 77 = 1 :=
  ⟨(playfair_generate_matrix_invariant [77, 79, 78, 65, 82, 67, 72, 89]).2.2.1,
   (playfair_generate_matrix_invariant [77, 79, 78, 65, 82, 67, 72, 89]).2.2.2.1,
   (playfair_generate_matrix_invariant [77, 79, 78, 65, 82, 67, 72, 89]).2.2.2.2.1
     77 (by decide)⟩

end Cryptolab
